import Mathlib

/-!
Verification of the geometry core of the voxel-editor repository
(`src/geometry.rs`).  The `f32` scalars of the source are modelled as exact
rationals (`ℚ`); every algorithm below is a direct transcription of the
corresponding Rust function, with the same branch structure, iteration order
and constants.
-/

set_option linter.unusedVariables false

namespace VE

/-- 3-component vector, modelling `cgmath::Vector3<f32>` with exact rationals. -/
structure V3 where
  x : ℚ
  y : ℚ
  z : ℚ
deriving DecidableEq, Repr

instance : Inhabited V3 := ⟨⟨0, 0, 0⟩⟩

def V3.add (a b : V3) : V3 := ⟨a.x + b.x, a.y + b.y, a.z + b.z⟩

instance : Add V3 := ⟨V3.add⟩

def V3.sub (a b : V3) : V3 := ⟨a.x - b.x, a.y - b.y, a.z - b.z⟩

instance : Sub V3 := ⟨V3.sub⟩

/-- Scalar multiplication `v * t` of `cgmath`, written with the scalar first. -/
def V3.smul (t : ℚ) (v : V3) : V3 := ⟨t * v.x, t * v.y, t * v.z⟩

/-- `cgmath::InnerSpace::dot`. -/
def V3.dot (a b : V3) : ℚ := a.x * b.x + a.y * b.y + a.z * b.z

/-- `cgmath::Vector3::unit_x()`. -/
def V3.unit_x : V3 := ⟨1, 0, 0⟩

@[simp] lemma V3.add_x (a b : V3) : (a + b).x = a.x + b.x := rfl
@[simp] lemma V3.add_y (a b : V3) : (a + b).y = a.y + b.y := rfl
@[simp] lemma V3.add_z (a b : V3) : (a + b).z = a.z + b.z := rfl
@[simp] lemma V3.sub_x (a b : V3) : (a - b).x = a.x - b.x := rfl
@[simp] lemma V3.sub_y (a b : V3) : (a - b).y = a.y - b.y := rfl
@[simp] lemma V3.sub_z (a b : V3) : (a - b).z = a.z - b.z := rfl

@[simp] lemma V3.mk_add_mk (a b c d e f : ℚ) :
    (⟨a, b, c⟩ + ⟨d, e, f⟩ : V3) = ⟨a + d, b + e, c + f⟩ := rfl
@[simp] lemma V3.add_mk (a : V3) (d e f : ℚ) :
    (a + ⟨d, e, f⟩ : V3) = ⟨a.x + d, a.y + e, a.z + f⟩ := rfl
@[simp] lemma V3.mk_sub_mk (a b c d e f : ℚ) :
    (⟨a, b, c⟩ - ⟨d, e, f⟩ : V3) = ⟨a - d, b - e, c - f⟩ := rfl
@[simp] lemma V3.smul_mk (t a b c : ℚ) :
    V3.smul t ⟨a, b, c⟩ = ⟨t * a, t * b, t * c⟩ := rfl
@[simp] lemma V3.dot_mk (a b c d e f : ℚ) :
    V3.dot ⟨a, b, c⟩ ⟨d, e, f⟩ = a * d + b * e + c * f := rfl

lemma V3.ext_comp {a b : V3} (hx : a.x = b.x) (hy : a.y = b.y) (hz : a.z = b.z) :
    a = b := by
  cases a; cases b; cases hx; cases hy; cases hz; rfl

lemma V3.ext_iff {a b : V3} : a = b ↔ a.x = b.x ∧ a.y = b.y ∧ a.z = b.z :=
  ⟨fun h => by cases h; exact ⟨rfl, rfl, rfl⟩,
   fun h => V3.ext_comp h.1 h.2.1 h.2.2⟩

/-- `pub const EPSYLON: f32 = 0.000001;` -/
def EPSYLON : ℚ := 1 / 1000000

/-- `pub const WHITE: [f32; 4]`. -/
def WHITE : ℚ × ℚ × ℚ × ℚ := (1, 1, 1, 1)

/-- `struct Plane` (the `debug_ray`-only `name` field is omitted: it is
compiled out in the default configuration and has no behavioural effect). -/
structure Plane where
  point : V3
  normal : V3
  left : V3
  down : V3

/-- `XY_PLANE`. -/
def XY_PLANE : Plane :=
  { point := ⟨1/2, 1/2, 0⟩
    normal := ⟨0, 0, 1⟩
    left := ⟨1, 0, 0⟩
    down := ⟨0, -1, 0⟩ }

/-- `YZ_PLANE`. -/
def YZ_PLANE : Plane :=
  { point := ⟨0, 1/2, 1/2⟩
    normal := ⟨1, 0, 0⟩
    left := ⟨0, 0, -1⟩
    down := ⟨0, -1, 0⟩ }

/-- `XZ_PLANE`. -/
def XZ_PLANE : Plane :=
  { point := ⟨1/2, 0, 1/2⟩
    normal := ⟨0, 1, 0⟩
    left := ⟨0, 0, -1⟩
    down := ⟨1, 0, 0⟩ }

/-- `struct Ray`. -/
structure Ray where
  point : V3
  vector : V3

/-- `Ray::new`. -/
def Ray.new (point vector : V3) : Ray := ⟨point, vector⟩

/-- `Ray::plane_intersection`, transcribed branch for branch from the source:
the local names `dist_square` / `dist_square2` are the source's names. -/
def Ray.plane_intersection (r : Ray) (plane : Plane) : Option V3 :=
  let dist_square := r.vector.dot plane.normal
  if |dist_square| > EPSYLON then
    let diff := r.point - plane.point
    let dist_square2 := diff.dot plane.normal / dist_square
    if dist_square2 ≥ EPSYLON then
      some (r.point - V3.smul dist_square2 r.vector)
    else
      none
  else
    none

/-- Modelled from the claim's words (refinement target for C1): return no
result when `|denom| ≤ EPSYLON`; otherwise with
`t = dot(point - plane.point, normal) / denom` return no result when
`t < EPSYLON`, and otherwise the point `point - vector * t`. -/
def planeIntersectionSpec (r : Ray) (plane : Plane) : Option V3 :=
  let denom := r.vector.dot plane.normal
  if |denom| ≤ EPSYLON then
    none
  else
    let t := (r.point - plane.point).dot plane.normal / denom
    if t < EPSYLON then
      none
    else
      some (r.point - V3.smul t r.vector)

/-- Claim C1: for every ray and plane, `plane_intersection` returns no result
when `|dot(vector, normal)| ≤ EPSYLON`; otherwise, with
`t = dot(point - plane.point, normal) / dot(vector, normal)`, it returns no
result when `t < EPSYLON` and otherwise exactly `point - vector * t`. -/
theorem plane_intersection_matches_spec (r : Ray) (plane : Plane) :
    r.plane_intersection plane = planeIntersectionSpec r plane := by
  unfold Ray.plane_intersection planeIntersectionSpec
  rcases le_or_lt (|r.vector.dot plane.normal|) EPSYLON with h | h
  · rw [if_neg (not_lt.mpr h), if_pos h]
  · rw [if_pos h, if_neg (not_le.mpr h)]
    rcases lt_or_le ((r.point - plane.point).dot plane.normal / r.vector.dot plane.normal)
      EPSYLON with h2 | h2
    · rw [if_neg (not_le.mpr h2), if_pos h2]
    · rw [if_pos h2, if_neg (not_lt.mpr h2)]

/-- Claim C1 (witness): the spec-equivalence instantiated at the concrete ray
from `(0, 0, 5)` along `(0, 0, 1)` against the canonical XY plane. -/
theorem plane_intersection_matches_spec_witness :
    (Ray.new ⟨0, 0, 5⟩ ⟨0, 0, 1⟩).plane_intersection XY_PLANE =
      planeIntersectionSpec (Ray.new ⟨0, 0, 5⟩ ⟨0, 0, 1⟩) XY_PLANE :=
  plane_intersection_matches_spec (Ray.new ⟨0, 0, 5⟩ ⟨0, 0, 1⟩) XY_PLANE

/-- Claim C2 (counterexample): the ray from `(0.5, 0.5, 5)` with direction
`(0, 0, -1)` does NOT intersect `XY_PLANE` under the code: the code computes
`t = -5 < EPSYLON` and returns `None`, not `Some (0.5, 0.5, 0)`. -/
theorem ray_down_from_front_returns_none :
    (Ray.new ⟨1/2, 1/2, 5⟩ ⟨0, 0, -1⟩).plane_intersection XY_PLANE = none := by
  norm_num [Ray.plane_intersection, Ray.new, XY_PLANE, EPSYLON]

/-- Claim C2 (amended): the ray from `(0.5, 0.5, 5)` with direction
`(0, 0, -1)` returns no result against `XY_PLANE`; with the reversed
direction `(0, 0, 1)` the code returns `Some (0.5, 0.5, 0)`, because the
result formula `point - vector * t` with `t ≥ EPSYLON` walks opposite to the
stored direction vector. -/
theorem ray_down_from_front_amended :
    (Ray.new ⟨1/2, 1/2, 5⟩ ⟨0, 0, -1⟩).plane_intersection XY_PLANE = none ∧
      (Ray.new ⟨1/2, 1/2, 5⟩ ⟨0, 0, 1⟩).plane_intersection XY_PLANE =
        some ⟨1/2, 1/2, 0⟩ := by
  constructor
  · norm_num [Ray.plane_intersection, Ray.new, XY_PLANE, EPSYLON]
  · norm_num [Ray.plane_intersection, Ray.new, XY_PLANE, EPSYLON]

/-- Claim C3 (counterexample): the ray from `(0.5, 0.5, -5)` with direction
`(0, 0, -1)` against `XY_PLANE` does NOT return `None`: the code computes
`t = 5 ≥ EPSYLON` and returns `Some (0.5, 0.5, 0)`. -/
theorem ray_away_from_behind_not_none :
    (Ray.new ⟨1/2, 1/2, -5⟩ ⟨0, 0, -1⟩).plane_intersection XY_PLANE ≠ none := by
  norm_num [Ray.plane_intersection, Ray.new, XY_PLANE, EPSYLON]
  exact Option.some_ne_none _

/-- Claim C3 (amended): the ray from `(0.5, 0.5, -5)` with direction
`(0, 0, -1)` against `XY_PLANE` returns `Some (0.5, 0.5, 0)`: the code's
`point - vector * t` convention accepts exactly the hits reached by walking
against the direction vector. -/
theorem ray_away_from_behind_hits :
    (Ray.new ⟨1/2, 1/2, -5⟩ ⟨0, 0, -1⟩).plane_intersection XY_PLANE =
      some ⟨1/2, 1/2, 0⟩ := by
  norm_num [Ray.plane_intersection, Ray.new, XY_PLANE, EPSYLON]

/-- `struct Cuboid` (`[f32; 4]` color carried through opaquely). -/
structure Cuboid where
  corner : V3
  extent : V3
  color : ℚ × ℚ × ℚ × ℚ
deriving DecidableEq, Repr

/-- `Cuboid::new`. -/
def Cuboid.new (corner extent : V3) (color : ℚ × ℚ × ℚ × ℚ) : Cuboid :=
  ⟨corner, extent, color⟩

/-- `Cuboid::corner_points`: the 8 corners in the source's fixed order. -/
def Cuboid.corner_points (c : Cuboid) : List V3 :=
  [c.corner,
   c.corner + ⟨c.extent.x, 0, 0⟩,
   c.corner + ⟨c.extent.x, c.extent.y, 0⟩,
   c.corner + ⟨0, c.extent.y, 0⟩,
   c.corner + ⟨0, 0, c.extent.z⟩,
   c.corner + ⟨c.extent.x, 0, c.extent.z⟩,
   c.corner + ⟨c.extent.x, c.extent.y, c.extent.z⟩,
   c.corner + ⟨0, c.extent.y, c.extent.z⟩]

/-- `Cuboid::manhattan_distance`. -/
def Cuboid.manhattan_distance (s e : V3) : ℚ :=
  |s.x - e.x| + |s.y - e.y| + |s.z - e.z|

/-- Manhattan distance of an ordered corner pair. -/
def mdist (p : V3 × V3) : ℚ := Cuboid.manhattan_distance p.1 p.2

/-- The 64 ordered corner pairs scanned by `Cuboid::outermost_points`, in the
source's loop order: outer loop over `self`'s corners, inner loop over
`other`'s corners. -/
def pairList (a b : Cuboid) : List (V3 × V3) :=
  a.corner_points.flatMap fun p => b.corner_points.map fun q => (p, q)

/-- One step of the farthest-pair scan: the body of the nested `for` loops of
`Cuboid::outermost_points`, updating on strictly greater distance only. -/
def bestStep (acc : (V3 × V3) × ℚ) (p : V3 × V3) : (V3 × V3) × ℚ :=
  if mdist p > acc.2 then (p, mdist p) else acc

/-- `Cuboid::outermost_points`: fold of `bestStep` over the 64 pairs, started
from the sentinel pair `(unit_x, unit_x)` at distance `0.0`. -/
def Cuboid.outermost_points (a b : Cuboid) : V3 × V3 :=
  ((pairList a b).foldl bestStep ((V3.unit_x, V3.unit_x), 0)).1

/-- The distance component of the same scan: the maximal Manhattan distance
found by `Cuboid::outermost_points`. -/
def Cuboid.max_manhattan (a b : Cuboid) : ℚ :=
  ((pairList a b).foldl bestStep ((V3.unit_x, V3.unit_x), 0)).2

/-- `Cuboid::from_corner_points`. -/
def Cuboid.from_corner_points (point1 point2 : V3) (color : ℚ × ℚ × ℚ × ℚ) :
    Cuboid :=
  ⟨point1, point2 - point1, color⟩

/-- `Cuboid::containing_cube`. -/
def Cuboid.containing_cube (a b : Cuboid) : Cuboid :=
  Cuboid.from_corner_points (a.outermost_points b).1 (a.outermost_points b).2
    a.color

/-- The `closest_to_origo` scan of `Cuboid::rearrange`: a linear pass that
replaces the candidate only when the new point is `≤` on all three axes
simultaneously. -/
def scanClosest (init : V3) (l : List V3) : V3 :=
  l.foldl
    (fun acc p => if p.x ≤ acc.x ∧ p.y ≤ acc.y ∧ p.z ≤ acc.z then p else acc)
    init

/-- The `farthest_from_origo` scan of `Cuboid::rearrange`. -/
def scanFarthest (init : V3) (l : List V3) : V3 :=
  l.foldl
    (fun acc p => if p.x ≥ acc.x ∧ p.y ≥ acc.y ∧ p.z ≥ acc.z then p else acc)
    init

/-- `Cuboid::rearrange`, as a pure function on the cuboid value: both scans
start from `corner_points[0]` and walk `corner_points[1..]`; the cuboid is
rebuilt only when its `corner` differs from the scanned minimum. -/
def Cuboid.rearrange (c : Cuboid) : Cuboid :=
  let ps := c.corner_points
  let closest_to_origo := scanClosest ps.headI ps.tail
  let farthest_from_origo := scanFarthest ps.headI ps.tail
  if c.corner = closest_to_origo then c
  else Cuboid.from_corner_points closest_to_origo farthest_from_origo c.color

/-- If no element of the remaining list beats the accumulated distance, the
farthest-pair scan leaves the accumulator untouched. -/
lemma foldl_bestStep_no_update :
    ∀ (l : List (V3 × V3)) (acc : (V3 × V3) × ℚ),
      (∀ p ∈ l, mdist p ≤ acc.2) → l.foldl bestStep acc = acc := by
  intro l
  induction l with
  | nil => intro acc h; rfl
  | cons p t ih =>
    intro acc h
    have hstep : bestStep acc p = acc := by
      unfold bestStep
      rw [if_neg (not_lt.mpr (h p (List.mem_cons_self p t)))]
    show List.foldl bestStep (bestStep acc p) t = acc
    rw [hstep]
    exact ih acc fun q hq => h q (List.mem_cons_of_mem p hq)

/-- The scan selects the first element whose distance strictly exceeds the
initial distance and every earlier distance, provided no later element
strictly exceeds it. -/
lemma foldl_bestStep_first_max :
    ∀ (pre : List (V3 × V3)) (sel : V3 × V3) (post : List (V3 × V3))
      (c₀ : V3 × V3) (d₀ : ℚ),
      d₀ < mdist sel →
      (∀ q ∈ pre, mdist q < mdist sel) →
      (∀ q ∈ pre ++ sel :: post, mdist q ≤ mdist sel) →
      ((pre ++ sel :: post).foldl bestStep (c₀, d₀)).1 = sel := by
  intro pre
  induction pre with
  | nil =>
    intro sel post c₀ d₀ hd _ hmax
    have hstep : bestStep (c₀, d₀) sel = (sel, mdist sel) := by
      unfold bestStep; rw [if_pos hd]
    show (List.foldl bestStep (bestStep (c₀, d₀) sel) post).1 = sel
    rw [hstep, foldl_bestStep_no_update post (sel, mdist sel)
      fun q hq => hmax q (by simpa using Or.inr hq)]
  | cons p pre' ih =>
    intro sel post c₀ d₀ hd hfirst hmax
    have hp : mdist p < mdist sel := hfirst p (List.mem_cons_self p pre')
    have hfirst' : ∀ q ∈ pre', mdist q < mdist sel :=
      fun q hq => hfirst q (List.mem_cons_of_mem p hq)
    have hmax' : ∀ q ∈ pre' ++ sel :: post, mdist q ≤ mdist sel :=
      fun q hq => hmax q (by simpa using Or.inr (by simpa using hq))
    show (List.foldl bestStep (bestStep (c₀, d₀) p) (pre' ++ sel :: post)).1 = sel
    unfold bestStep
    by_cases hcase : mdist p > d₀
    · rw [if_pos hcase]
      exact ih sel post p (mdist p) hp hfirst' hmax'
    · rw [if_neg hcase]
      exact ih sel post c₀ d₀ hd hfirst' hmax'

/-- Claim C4: `containing_cube` scans the 64 ordered corner pairs (`self`'s
corners in the outer loop, `other`'s in the inner loop), selects the first
pair whose Manhattan distance strictly exceeds every previously seen distance
(including the initial `0.0`; strict `>` so the first maximal pair wins
ties), and returns `from_corner_points` of that pair with `self`'s color
(corner = the `self` corner, extent = other corner minus it). -/
theorem containing_cube_first_max (a b : Cuboid) (sel : V3 × V3)
    (pre : List (V3 × V3))
    (hsplit : ∃ post, pairList a b = pre ++ sel :: post)
    (hpos : 0 < mdist sel)
    (hfirst : ∀ q ∈ pre, mdist q < mdist sel)
    (hmax : ∀ q ∈ pairList a b, mdist q ≤ mdist sel) :
    (pairList a b).length = 64 ∧
      a.containing_cube b = Cuboid.from_corner_points sel.1 sel.2 a.color := by
  obtain ⟨post, hpost⟩ := hsplit
  constructor
  · simp [pairList, Cuboid.corner_points]
  · have houter : a.outermost_points b = sel := by
      unfold Cuboid.outermost_points
      rw [hpost]
      exact foldl_bestStep_first_max pre sel post _ 0 hpos hfirst
        (by rw [← hpost]; exact hmax)
    unfold Cuboid.containing_cube
    rw [houter]

set_option maxHeartbeats 1600000 in
/-- Claim C4 (witness): the point cuboid at the origin against the cuboid
with corner `(5,5,5)` and extent `(-1,-1,-1)`; the very first scanned pair
`((0,0,0), (5,5,5))` attains the strict maximum distance 15. -/
theorem containing_cube_first_max_witness :
    (∃ post, pairList (Cuboid.new ⟨0, 0, 0⟩ ⟨0, 0, 0⟩ WHITE)
        (Cuboid.new ⟨5, 5, 5⟩ ⟨-1, -1, -1⟩ WHITE) =
        [] ++ (⟨0, 0, 0⟩, ⟨5, 5, 5⟩) :: post) ∧
      0 < mdist (⟨0, 0, 0⟩, ⟨5, 5, 5⟩) ∧
      (∀ q ∈ (pairList (Cuboid.new ⟨0, 0, 0⟩ ⟨0, 0, 0⟩ WHITE)
        (Cuboid.new ⟨5, 5, 5⟩ ⟨-1, -1, -1⟩ WHITE)),
        mdist q ≤ mdist (⟨0, 0, 0⟩, ⟨5, 5, 5⟩)) ∧
      ((pairList (Cuboid.new ⟨0, 0, 0⟩ ⟨0, 0, 0⟩ WHITE)
          (Cuboid.new ⟨5, 5, 5⟩ ⟨-1, -1, -1⟩ WHITE)).length = 64 ∧
        (Cuboid.new ⟨0, 0, 0⟩ ⟨0, 0, 0⟩ WHITE).containing_cube
            (Cuboid.new ⟨5, 5, 5⟩ ⟨-1, -1, -1⟩ WHITE) =
          Cuboid.from_corner_points (⟨0, 0, 0⟩ : V3) (⟨5, 5, 5⟩ : V3) WHITE) :=
  ⟨⟨_, rfl⟩,
   by norm_num [mdist, Cuboid.manhattan_distance],
   by norm_num [pairList, Cuboid.new, Cuboid.corner_points, mdist,
     Cuboid.manhattan_distance],
   containing_cube_first_max (Cuboid.new ⟨0, 0, 0⟩ ⟨0, 0, 0⟩ WHITE)
     (Cuboid.new ⟨5, 5, 5⟩ ⟨-1, -1, -1⟩ WHITE) (⟨0, 0, 0⟩, ⟨5, 5, 5⟩) [] ⟨_, rfl⟩
     (by norm_num [mdist, Cuboid.manhattan_distance])
     (fun q hq => absurd hq (List.not_mem_nil q))
     (by norm_num [pairList, Cuboid.new, Cuboid.corner_points, mdist,
       Cuboid.manhattan_distance])⟩

/-- Claim C10: when all corners of both cuboids coincide at one shared point
(every one of the 64 pairs has Manhattan distance `0`), `containing_cube`
returns the sentinel initial value of the search: corner `(1, 0, 0)` and
extent `(0, 0, 0)`, because a distance of `0` never satisfies the strict `>`
update against the initial `0.0`. -/
theorem containing_cube_degenerate (a b : Cuboid) (pt : V3)
    (ha : ∀ p ∈ a.corner_points, p = pt) (hb : ∀ q ∈ b.corner_points, q = pt) :
    (a.containing_cube b).corner = ⟨1, 0, 0⟩ ∧
      (a.containing_cube b).extent = ⟨0, 0, 0⟩ := by
  have hall : ∀ p ∈ pairList a b, mdist p ≤ ((0 : ℚ)) := by
    intro p hp
    obtain ⟨u, hu, v, hv, rfl⟩ := by
      simpa [pairList, List.mem_flatMap, List.mem_map] using hp
    rw [ha u hu, hb v hv]
    simp [mdist, Cuboid.manhattan_distance]
  have h := foldl_bestStep_no_update (pairList a b)
    ((V3.unit_x, V3.unit_x), 0) hall
  unfold Cuboid.containing_cube Cuboid.outermost_points Cuboid.from_corner_points
  rw [h]
  constructor
  · rfl
  · simp [V3.unit_x]

/-- Claim C10 (witness): two copies of the zero-extent cuboid at `(2,3,4)`. -/
theorem containing_cube_degenerate_witness :
    (∀ p ∈ (Cuboid.new ⟨2, 3, 4⟩ ⟨0, 0, 0⟩ WHITE).corner_points,
        p = (⟨2, 3, 4⟩ : V3)) ∧
      ((Cuboid.new ⟨2, 3, 4⟩ ⟨0, 0, 0⟩ WHITE).containing_cube
          (Cuboid.new ⟨2, 3, 4⟩ ⟨0, 0, 0⟩ WHITE)).corner = ⟨1, 0, 0⟩ ∧
      ((Cuboid.new ⟨2, 3, 4⟩ ⟨0, 0, 0⟩ WHITE).containing_cube
          (Cuboid.new ⟨2, 3, 4⟩ ⟨0, 0, 0⟩ WHITE)).extent = ⟨0, 0, 0⟩ :=
  ⟨by norm_num [Cuboid.new, Cuboid.corner_points],
   containing_cube_degenerate _ _ ⟨2, 3, 4⟩
     (by norm_num [Cuboid.new, Cuboid.corner_points])
     (by norm_num [Cuboid.new, Cuboid.corner_points])⟩

/-- Claim C9: `corner_points` of the cuboid with corner `(0,0,0)`, extent
`(1,1,1)` and color `WHITE` is exactly the 8 points `(0,0,0)`, `(1,0,0)`,
`(1,1,0)`, `(0,1,0)`, `(0,0,1)`, `(1,0,1)`, `(1,1,1)`, `(0,1,1)`, in that
order. -/
theorem corner_points_unit_cube :
    (Cuboid.new ⟨0, 0, 0⟩ ⟨1, 1, 1⟩ WHITE).corner_points =
      [⟨0, 0, 0⟩, ⟨1, 0, 0⟩, ⟨1, 1, 0⟩, ⟨0, 1, 0⟩,
       ⟨0, 0, 1⟩, ⟨1, 0, 1⟩, ⟨1, 1, 1⟩, ⟨0, 1, 1⟩] := by
  norm_num [Cuboid.corner_points, Cuboid.new]

/-- Componentwise order on points: `m` is below `p` on all three axes. -/
def dominatedBy (m p : V3) : Prop := m.x ≤ p.x ∧ m.y ≤ p.y ∧ m.z ≤ p.z

/-- If a point of the scanned collection is componentwise below every other
point (including the initial candidate), the `closest_to_origo` scan ends on
exactly that point. -/
lemma scanClosest_eq_of_dominant :
    ∀ (l : List V3) (init m : V3), (m = init ∨ m ∈ l) →
      dominatedBy m init → (∀ p ∈ l, dominatedBy m p) →
      scanClosest init l = m := by
  intro l
  induction l with
  | nil =>
    intro init m hmem _ _
    rcases hmem with rfl | h
    · rfl
    · exact absurd h (List.not_mem_nil m)
  | cons p t ih =>
    intro init m hmem hminit hdom
    have hdp : dominatedBy m p := hdom p (List.mem_cons_self p t)
    have hdt : ∀ q ∈ t, dominatedBy m q :=
      fun q hq => hdom q (List.mem_cons_of_mem p hq)
    show scanClosest (if p.x ≤ init.x ∧ p.y ≤ init.y ∧ p.z ≤ init.z
      then p else init) t = m
    by_cases hcond : p.x ≤ init.x ∧ p.y ≤ init.y ∧ p.z ≤ init.z
    · rw [if_pos hcond]
      rcases hmem with rfl | hm
      · -- `m` is the old candidate; the new candidate has the same
        -- coordinates, hence is the same point.
        have hpm : p = m := V3.ext_comp
          (le_antisymm hcond.1 hdp.1) (le_antisymm hcond.2.1 hdp.2.1)
          (le_antisymm hcond.2.2 hdp.2.2)
        exact ih p m (Or.inl hpm.symm) (hpm ▸ hdp) hdt
      · rcases List.mem_cons.mp hm with rfl | hmt
        · exact ih m m (Or.inl rfl) ⟨le_refl _, le_refl _, le_refl _⟩ hdt
        · exact ih p m (Or.inr hmt) hdp hdt
    · rw [if_neg hcond]
      rcases hmem with rfl | hm
      · exact ih m m (Or.inl rfl) hminit hdt
      · rcases List.mem_cons.mp hm with rfl | hmt
        · exact absurd ⟨hdp.1.trans hminit.1, hdp.2.1.trans hminit.2.1,
            hdp.2.2.trans hminit.2.2⟩ hcond
        · exact ih init m (Or.inr hmt) hminit hdt

/-- Mirror statement for the `farthest_from_origo` scan. -/
lemma scanFarthest_eq_of_dominant :
    ∀ (l : List V3) (init m : V3), (m = init ∨ m ∈ l) →
      dominatedBy init m → (∀ p ∈ l, dominatedBy p m) →
      scanFarthest init l = m := by
  intro l
  induction l with
  | nil =>
    intro init m hmem _ _
    rcases hmem with rfl | h
    · rfl
    · exact absurd h (List.not_mem_nil m)
  | cons p t ih =>
    intro init m hmem hminit hdom
    have hdp : dominatedBy p m := hdom p (List.mem_cons_self p t)
    have hdt : ∀ q ∈ t, dominatedBy q m :=
      fun q hq => hdom q (List.mem_cons_of_mem p hq)
    show scanFarthest (if p.x ≥ init.x ∧ p.y ≥ init.y ∧ p.z ≥ init.z
      then p else init) t = m
    by_cases hcond : p.x ≥ init.x ∧ p.y ≥ init.y ∧ p.z ≥ init.z
    · rw [if_pos hcond]
      rcases hmem with rfl | hm
      · have hpm : p = m := V3.ext_comp
          (le_antisymm hdp.1 hcond.1) (le_antisymm hdp.2.1 hcond.2.1)
          (le_antisymm hdp.2.2 hcond.2.2)
        exact ih p m (Or.inl hpm.symm) (hpm ▸ hdp) hdt
      · rcases List.mem_cons.mp hm with rfl | hmt
        · exact ih m m (Or.inl rfl) ⟨le_refl _, le_refl _, le_refl _⟩ hdt
        · exact ih p m (Or.inr hmt) hdp hdt
    · rw [if_neg hcond]
      rcases hmem with rfl | hm
      · exact ih m m (Or.inl rfl) hminit hdt
      · rcases List.mem_cons.mp hm with rfl | hmt
        · exact absurd ⟨hminit.1.trans hdp.1, hminit.2.1.trans hdp.2.1,
            hminit.2.2.trans hdp.2.2⟩ hcond
        · exact ih init m (Or.inr hmt) hminit hdt

/-- The componentwise-minimal corner of the box described by
`corner`/`extent`. -/
def Cuboid.minCorner (c : Cuboid) : V3 :=
  ⟨c.corner.x + min c.extent.x 0, c.corner.y + min c.extent.y 0,
   c.corner.z + min c.extent.z 0⟩

/-- The componentwise-maximal corner of the box. -/
def Cuboid.maxCorner (c : Cuboid) : V3 :=
  ⟨c.corner.x + max c.extent.x 0, c.corner.y + max c.extent.y 0,
   c.corner.z + max c.extent.z 0⟩

lemma minCorner_mem (c : Cuboid) : c.minCorner ∈ c.corner_points := by
  rcases min_choice c.extent.x 0 with hx | hx <;>
    rcases min_choice c.extent.y 0 with hy | hy <;>
      rcases min_choice c.extent.z 0 with hz | hz <;>
        simp [Cuboid.minCorner, Cuboid.corner_points, hx, hy, hz, V3.ext_iff]

lemma maxCorner_mem (c : Cuboid) : c.maxCorner ∈ c.corner_points := by
  rcases max_choice c.extent.x 0 with hx | hx <;>
    rcases max_choice c.extent.y 0 with hy | hy <;>
      rcases max_choice c.extent.z 0 with hz | hz <;>
        simp [Cuboid.maxCorner, Cuboid.corner_points, hx, hy, hz, V3.ext_iff]

lemma minCorner_dominates (c : Cuboid) :
    ∀ p ∈ c.corner_points, dominatedBy c.minCorner p := by
  intro p hp
  simp only [Cuboid.corner_points, List.mem_cons, List.not_mem_nil,
    or_false] at hp
  rcases hp with rfl | rfl | rfl | rfl | rfl | rfl | rfl | rfl <;>
    refine ⟨?_, ?_, ?_⟩ <;>
      simp [Cuboid.minCorner, dominatedBy]

lemma maxCorner_dominated (c : Cuboid) :
    ∀ p ∈ c.corner_points, dominatedBy p c.maxCorner := by
  intro p hp
  simp only [Cuboid.corner_points, List.mem_cons, List.not_mem_nil,
    or_false] at hp
  rcases hp with rfl | rfl | rfl | rfl | rfl | rfl | rfl | rfl <;>
    refine ⟨?_, ?_, ?_⟩ <;>
      simp [Cuboid.maxCorner, dominatedBy]

/-- `rearrange` in closed form: the two scans always find the componentwise
extreme corners of the box. -/
lemma rearrange_eq (c : Cuboid) :
    c.rearrange = if c.corner = c.minCorner then c
      else Cuboid.from_corner_points c.minCorner c.maxCorner c.color := by
  have hcons : c.corner_points = c.corner :: c.corner_points.tail := rfl
  have hmem1 : c.minCorner = c.corner ∨ c.minCorner ∈ c.corner_points.tail := by
    have h := minCorner_mem c
    rw [hcons] at h
    exact List.mem_cons.mp h
  have hd1 : dominatedBy c.minCorner c.corner := by
    apply minCorner_dominates
    rw [hcons]
    exact List.mem_cons_self c.corner c.corner_points.tail
  have hd1t : ∀ p ∈ c.corner_points.tail, dominatedBy c.minCorner p := by
    intro p hp
    apply minCorner_dominates
    rw [hcons]
    exact List.mem_cons_of_mem c.corner hp
  have h1 : scanClosest c.corner_points.headI c.corner_points.tail =
      c.minCorner :=
    scanClosest_eq_of_dominant c.corner_points.tail c.corner_points.headI
      c.minCorner hmem1 hd1 hd1t
  have hmem2 : c.maxCorner = c.corner ∨ c.maxCorner ∈ c.corner_points.tail := by
    have h := maxCorner_mem c
    rw [hcons] at h
    exact List.mem_cons.mp h
  have hd2 : dominatedBy c.corner c.maxCorner := by
    apply maxCorner_dominated
    rw [hcons]
    exact List.mem_cons_self c.corner c.corner_points.tail
  have hd2t : ∀ p ∈ c.corner_points.tail, dominatedBy p c.maxCorner := by
    intro p hp
    apply maxCorner_dominated
    rw [hcons]
    exact List.mem_cons_of_mem c.corner hp
  have h2 : scanFarthest c.corner_points.headI c.corner_points.tail =
      c.maxCorner :=
    scanFarthest_eq_of_dominant c.corner_points.tail c.corner_points.headI
      c.maxCorner hmem2 hd2 hd2t
  simp only [Cuboid.rearrange]
  rw [h1, h2]

/-- After `rearrange` the stored extent is componentwise non-negative. -/
lemma rearrange_extent_nonneg (c : Cuboid) :
    0 ≤ (c.rearrange).extent.x ∧ 0 ≤ (c.rearrange).extent.y ∧
      0 ≤ (c.rearrange).extent.z := by
  rw [rearrange_eq]
  by_cases h : c.corner = c.minCorner
  · rw [if_pos h]
    have hx := congrArg V3.x h
    have hy := congrArg V3.y h
    have hz := congrArg V3.z h
    simp only [Cuboid.minCorner] at hx hy hz
    refine ⟨min_eq_right_iff.mp ?_, min_eq_right_iff.mp ?_,
      min_eq_right_iff.mp ?_⟩
    · linarith
    · linarith
    · linarith
  · rw [if_neg h]
    refine ⟨?_, ?_, ?_⟩ <;>
      simp only [Cuboid.from_corner_points, Cuboid.minCorner,
        Cuboid.maxCorner, V3.mk_sub_mk]
    · have h1 := min_le_right c.extent.x 0
      have h2 := le_max_right c.extent.x 0
      linarith
    · have h1 := min_le_right c.extent.y 0
      have h2 := le_max_right c.extent.y 0
      linarith
    · have h1 := min_le_right c.extent.z 0
      have h2 := le_max_right c.extent.z 0
      linarith

/-- A cuboid with componentwise non-negative extent has its stored corner
componentwise below each of its 8 corner points. -/
lemma corner_min_of_extent_nonneg (c : Cuboid) (hx : 0 ≤ c.extent.x)
    (hy : 0 ≤ c.extent.y) (hz : 0 ≤ c.extent.z) :
    ∀ p ∈ c.corner_points,
      c.corner.x ≤ p.x ∧ c.corner.y ≤ p.y ∧ c.corner.z ≤ p.z := by
  intro p hp
  simp only [Cuboid.corner_points, List.mem_cons, List.not_mem_nil,
    or_false] at hp
  rcases hp with rfl | rfl | rfl | rfl | rfl | rfl | rfl | rfl <;>
    refine ⟨?_, ?_, ?_⟩ <;> simp <;> linarith

/-- Claim C5: immediately after `rearrange`, the cuboid's extent is
componentwise non-negative, equivalently its stored corner is componentwise
minimal among the 8 derived corner points. -/
theorem rearrange_corner_minimal (c : Cuboid) :
    (0 ≤ (c.rearrange).extent.x ∧ 0 ≤ (c.rearrange).extent.y ∧
        0 ≤ (c.rearrange).extent.z) ∧
      ∀ p ∈ (c.rearrange).corner_points,
        (c.rearrange).corner.x ≤ p.x ∧ (c.rearrange).corner.y ≤ p.y ∧
          (c.rearrange).corner.z ≤ p.z := by
  have h := rearrange_extent_nonneg c
  exact ⟨h, corner_min_of_extent_nonneg _ h.1 h.2.1 h.2.2⟩

/-- Claim C5 (witness): the backwards box with corner `(5,5,5)` and extent
`(-2,-2,-2)`; after `rearrange` its corner is below its corner point
`(5,5,5)`. -/
theorem rearrange_corner_minimal_witness :
    (⟨5, 5, 5⟩ : V3) ∈
        ((Cuboid.new ⟨5, 5, 5⟩ ⟨-2, -2, -2⟩ WHITE).rearrange).corner_points ∧
      (((Cuboid.new ⟨5, 5, 5⟩ ⟨-2, -2, -2⟩ WHITE).rearrange).corner.x ≤
          (5 : ℚ) ∧
        ((Cuboid.new ⟨5, 5, 5⟩ ⟨-2, -2, -2⟩ WHITE).rearrange).corner.y ≤
          (5 : ℚ) ∧
        ((Cuboid.new ⟨5, 5, 5⟩ ⟨-2, -2, -2⟩ WHITE).rearrange).corner.z ≤
          (5 : ℚ)) :=
  ⟨by norm_num [Cuboid.rearrange, Cuboid.new, Cuboid.corner_points,
      scanClosest, scanFarthest, Cuboid.from_corner_points],
   (rearrange_corner_minimal (Cuboid.new ⟨5, 5, 5⟩ ⟨-2, -2, -2⟩ WHITE)).2
     ⟨5, 5, 5⟩
     (by norm_num [Cuboid.rearrange, Cuboid.new, Cuboid.corner_points,
       scanClosest, scanFarthest, Cuboid.from_corner_points])⟩

/-- A cuboid whose extent is already componentwise non-negative is left
untouched by `rearrange` (its stored corner is the scanned minimum). -/
lemma rearrange_of_extent_nonneg (c : Cuboid) (hx : 0 ≤ c.extent.x)
    (hy : 0 ≤ c.extent.y) (hz : 0 ≤ c.extent.z) : c.rearrange = c := by
  rw [rearrange_eq, if_pos]
  exact V3.ext_comp (by simp [Cuboid.minCorner, min_eq_right hx])
    (by simp [Cuboid.minCorner, min_eq_right hy])
    (by simp [Cuboid.minCorner, min_eq_right hz])

/-- Claim C6: `rearrange` is idempotent: applying it twice yields the same
cuboid (corner, extent and color) as applying it once, for every initial
corner and extent. -/
theorem rearrange_idempotent (c : Cuboid) :
    (c.rearrange).rearrange = c.rearrange := by
  have h := rearrange_extent_nonneg c
  exact rearrange_of_extent_nonneg _ h.1 h.2.1 h.2.2

/-- Largest per-axis separation of two two-point coordinate ranges. -/
def axisMax (a0 a1 b0 b1 : ℚ) : ℚ :=
  max (max |a0 - b0| |a0 - b1|) (max |a1 - b0| |a1 - b1|)

/-- Largest x-separation between corners of `a` and corners of `b`. -/
def Cuboid.axisMaxX (a b : Cuboid) : ℚ :=
  axisMax a.corner.x (a.corner.x + a.extent.x) b.corner.x
    (b.corner.x + b.extent.x)

/-- Largest y-separation between corners of `a` and corners of `b`. -/
def Cuboid.axisMaxY (a b : Cuboid) : ℚ :=
  axisMax a.corner.y (a.corner.y + a.extent.y) b.corner.y
    (b.corner.y + b.extent.y)

/-- Largest z-separation between corners of `a` and corners of `b`. -/
def Cuboid.axisMaxZ (a b : Cuboid) : ℚ :=
  axisMax a.corner.z (a.corner.z + a.extent.z) b.corner.z
    (b.corner.z + b.extent.z)

lemma axisMax_nonneg (a0 a1 b0 b1 : ℚ) : 0 ≤ axisMax a0 a1 b0 b1 :=
  le_trans (abs_nonneg (a0 - b0)) (le_trans (le_max_left _ _) (le_max_left _ _))

lemma axisMax_comm (a0 a1 b0 b1 : ℚ) :
    axisMax a0 a1 b0 b1 = axisMax b0 b1 a0 a1 := by
  unfold axisMax
  rw [abs_sub_comm a0 b0, abs_sub_comm a0 b1, abs_sub_comm a1 b0,
    abs_sub_comm a1 b1, max_max_max_comm]

lemma abs_le_axisMax {a0 a1 b0 b1 u v : ℚ} (hu : u = a0 ∨ u = a1)
    (hv : v = b0 ∨ v = b1) : |u - v| ≤ axisMax a0 a1 b0 b1 := by
  unfold axisMax
  rcases hu with rfl | rfl <;> rcases hv with rfl | rfl
  · exact le_trans (le_max_left _ _) (le_max_left _ _)
  · exact le_trans (le_max_right _ _) (le_max_left _ _)
  · exact le_trans (le_max_left _ _) (le_max_right _ _)
  · exact le_trans (le_max_right _ _) (le_max_right _ _)

lemma axisMax_achieved (a0 a1 b0 b1 : ℚ) :
    ∃ u v, (u = a0 ∨ u = a1) ∧ (v = b0 ∨ v = b1) ∧
      |u - v| = axisMax a0 a1 b0 b1 := by
  unfold axisMax
  rcases max_choice (max |a0 - b0| |a0 - b1|) (max |a1 - b0| |a1 - b1|)
    with h | h <;> rw [h]
  · rcases max_choice |a0 - b0| |a0 - b1| with h2 | h2 <;> rw [h2]
    · exact ⟨a0, b0, Or.inl rfl, Or.inl rfl, rfl⟩
    · exact ⟨a0, b1, Or.inl rfl, Or.inr rfl, rfl⟩
  · rcases max_choice |a1 - b0| |a1 - b1| with h2 | h2 <;> rw [h2]
    · exact ⟨a1, b0, Or.inr rfl, Or.inl rfl, rfl⟩
    · exact ⟨a1, b1, Or.inr rfl, Or.inr rfl, rfl⟩

lemma corner_points_x (a : Cuboid) :
    ∀ p ∈ a.corner_points, p.x = a.corner.x ∨ p.x = a.corner.x + a.extent.x := by
  intro p hp
  simp only [Cuboid.corner_points, List.mem_cons, List.not_mem_nil,
    or_false] at hp
  rcases hp with rfl | rfl | rfl | rfl | rfl | rfl | rfl | rfl <;> simp

lemma corner_points_y (a : Cuboid) :
    ∀ p ∈ a.corner_points, p.y = a.corner.y ∨ p.y = a.corner.y + a.extent.y := by
  intro p hp
  simp only [Cuboid.corner_points, List.mem_cons, List.not_mem_nil,
    or_false] at hp
  rcases hp with rfl | rfl | rfl | rfl | rfl | rfl | rfl | rfl <;> simp

lemma corner_points_z (a : Cuboid) :
    ∀ p ∈ a.corner_points, p.z = a.corner.z ∨ p.z = a.corner.z + a.extent.z := by
  intro p hp
  simp only [Cuboid.corner_points, List.mem_cons, List.not_mem_nil,
    or_false] at hp
  rcases hp with rfl | rfl | rfl | rfl | rfl | rfl | rfl | rfl <;> simp

lemma mem_pairList {a b : Cuboid} {p : V3 × V3} :
    p ∈ pairList a b ↔ p.1 ∈ a.corner_points ∧ p.2 ∈ b.corner_points := by
  constructor
  · intro hp
    obtain ⟨u, hu, v, hv, hpv⟩ := by
      simpa [pairList, List.mem_flatMap, List.mem_map] using hp
    cases hpv
    exact ⟨hu, hv⟩
  · intro h
    simp only [pairList, List.mem_flatMap, List.mem_map]
    exact ⟨p.1, h.1, p.2, h.2, rfl⟩

lemma mdist_le_sum_axisMax {a b : Cuboid} {p : V3 × V3}
    (hp : p ∈ pairList a b) :
    mdist p ≤ a.axisMaxX b + a.axisMaxY b + a.axisMaxZ b := by
  obtain ⟨h1, h2⟩ := mem_pairList.mp hp
  exact add_le_add
    (add_le_add
      (abs_le_axisMax (corner_points_x a p.1 h1) (corner_points_x b p.2 h2))
      (abs_le_axisMax (corner_points_y a p.1 h1) (corner_points_y b p.2 h2)))
    (abs_le_axisMax (corner_points_z a p.1 h1) (corner_points_z b p.2 h2))

lemma exists_corner (c : Cuboid) {ux uy uz : ℚ}
    (hx : ux = c.corner.x ∨ ux = c.corner.x + c.extent.x)
    (hy : uy = c.corner.y ∨ uy = c.corner.y + c.extent.y)
    (hz : uz = c.corner.z ∨ uz = c.corner.z + c.extent.z) :
    (⟨ux, uy, uz⟩ : V3) ∈ c.corner_points := by
  rcases hx with rfl | rfl <;> rcases hy with rfl | rfl <;>
    rcases hz with rfl | rfl <;>
      simp [Cuboid.corner_points, V3.ext_iff]

lemma exists_pair_sum_axisMax (a b : Cuboid) :
    ∃ p ∈ pairList a b,
      mdist p = a.axisMaxX b + a.axisMaxY b + a.axisMaxZ b := by
  obtain ⟨ux, vx, hux, hvx, hx⟩ := axisMax_achieved a.corner.x
    (a.corner.x + a.extent.x) b.corner.x (b.corner.x + b.extent.x)
  obtain ⟨uy, vy, huy, hvy, hy⟩ := axisMax_achieved a.corner.y
    (a.corner.y + a.extent.y) b.corner.y (b.corner.y + b.extent.y)
  obtain ⟨uz, vz, huz, hvz, hz⟩ := axisMax_achieved a.corner.z
    (a.corner.z + a.extent.z) b.corner.z (b.corner.z + b.extent.z)
  refine ⟨(⟨ux, uy, uz⟩, ⟨vx, vy, vz⟩),
    mem_pairList.mpr ⟨exists_corner a hux huy huz,
      exists_corner b hvx hvy hvz⟩, ?_⟩
  show |ux - vx| + |uy - vy| + |uz - vz| = _
  rw [hx, hy, hz]
  rfl

lemma foldl_bestStep_snd_le :
    ∀ (l : List (V3 × V3)) (acc : (V3 × V3) × ℚ) (K : ℚ), acc.2 ≤ K →
      (∀ p ∈ l, mdist p ≤ K) → (l.foldl bestStep acc).2 ≤ K := by
  intro l
  induction l with
  | nil => intro acc K hK _; exact hK
  | cons p t ih =>
    intro acc K hK hall
    show (List.foldl bestStep (bestStep acc p) t).2 ≤ K
    apply ih
    · unfold bestStep
      by_cases hc : mdist p > acc.2
      · rw [if_pos hc]; exact hall p (List.mem_cons_self p t)
      · rw [if_neg hc]; exact hK
    · exact fun q hq => hall q (List.mem_cons_of_mem p hq)

lemma foldl_bestStep_snd_ge_init :
    ∀ (l : List (V3 × V3)) (acc : (V3 × V3) × ℚ),
      acc.2 ≤ (l.foldl bestStep acc).2 := by
  intro l
  induction l with
  | nil => intro acc; exact le_refl _
  | cons p t ih =>
    intro acc
    show acc.2 ≤ (List.foldl bestStep (bestStep acc p) t).2
    refine le_trans ?_ (ih (bestStep acc p))
    unfold bestStep
    by_cases hc : mdist p > acc.2
    · rw [if_pos hc]; exact le_of_lt hc
    · rw [if_neg hc]

lemma foldl_bestStep_le_snd :
    ∀ (l : List (V3 × V3)) (acc : (V3 × V3) × ℚ) (p : V3 × V3), p ∈ l →
      mdist p ≤ (l.foldl bestStep acc).2 := by
  intro l
  induction l with
  | nil => intro acc p hp; exact absurd hp (List.not_mem_nil p)
  | cons q t ih =>
    intro acc p hp
    show mdist p ≤ (List.foldl bestStep (bestStep acc q) t).2
    rcases List.mem_cons.mp hp with rfl | hpt
    · refine le_trans ?_ (foldl_bestStep_snd_ge_init t (bestStep acc p))
      unfold bestStep
      by_cases hc : mdist p > acc.2
      · rw [if_pos hc]
      · rw [if_neg hc]; exact not_lt.mp hc
    · exact ih (bestStep acc q) p hpt

/-- The maximal distance found by the scan is exactly the sum of the three
per-axis maximal separations. -/
lemma max_manhattan_eq_sum (a b : Cuboid) :
    a.max_manhattan b = a.axisMaxX b + a.axisMaxY b + a.axisMaxZ b := by
  apply le_antisymm
  · apply foldl_bestStep_snd_le
    · have h1 := axisMax_nonneg a.corner.x (a.corner.x + a.extent.x)
        b.corner.x (b.corner.x + b.extent.x)
      have h2 := axisMax_nonneg a.corner.y (a.corner.y + a.extent.y)
        b.corner.y (b.corner.y + b.extent.y)
      have h3 := axisMax_nonneg a.corner.z (a.corner.z + a.extent.z)
        b.corner.z (b.corner.z + b.extent.z)
      show (0 : ℚ) ≤ _
      unfold Cuboid.axisMaxX Cuboid.axisMaxY Cuboid.axisMaxZ
      linarith
    · exact fun p hp => mdist_le_sum_axisMax hp
  · obtain ⟨p, hp, hps⟩ := exists_pair_sum_axisMax a b
    rw [← hps]
    exact foldl_bestStep_le_snd (pairList a b) ((V3.unit_x, V3.unit_x), 0) p hp

/-- The scan either never updates (and returns the start accumulator), or
returns a scanned pair together with its own distance. -/
lemma foldl_bestStep_result :
    ∀ (l : List (V3 × V3)) (acc : (V3 × V3) × ℚ),
      l.foldl bestStep acc = acc ∨
        ((l.foldl bestStep acc).1 ∈ l ∧
          mdist (l.foldl bestStep acc).1 = (l.foldl bestStep acc).2) := by
  intro l
  induction l with
  | nil => intro acc; exact Or.inl rfl
  | cons p t ih =>
    intro acc
    have hfold : (p :: t).foldl bestStep acc = t.foldl bestStep (bestStep acc p) :=
      rfl
    rw [hfold]
    rcases ih (bestStep acc p) with h | h
    · rw [h]
      unfold bestStep
      by_cases hc : mdist p > acc.2
      · rw [if_pos hc]
        exact Or.inr ⟨List.mem_cons_self p t, rfl⟩
      · rw [if_neg hc]
        exact Or.inl rfl
    · exact Or.inr ⟨List.mem_cons_of_mem p h.1, h.2⟩

/-- A scanned pair whose distance attains the three-axis maximum has each
per-axis magnitude equal to the corresponding per-axis maximum. -/
lemma extent_abs_of_selected {a b : Cuboid} {q : V3 × V3}
    (hqmem : q ∈ pairList a b)
    (hqd : mdist q = a.axisMaxX b + a.axisMaxY b + a.axisMaxZ b) :
    |(q.2 - q.1).x| = a.axisMaxX b ∧ |(q.2 - q.1).y| = a.axisMaxY b ∧
      |(q.2 - q.1).z| = a.axisMaxZ b := by
  obtain ⟨h1, h2⟩ := mem_pairList.mp hqmem
  have hbx : |q.1.x - q.2.x| ≤ a.axisMaxX b :=
    abs_le_axisMax (corner_points_x a q.1 h1) (corner_points_x b q.2 h2)
  have hby : |q.1.y - q.2.y| ≤ a.axisMaxY b :=
    abs_le_axisMax (corner_points_y a q.1 h1) (corner_points_y b q.2 h2)
  have hbz : |q.1.z - q.2.z| ≤ a.axisMaxZ b :=
    abs_le_axisMax (corner_points_z a q.1 h1) (corner_points_z b q.2 h2)
  have hsum2 : |q.1.x - q.2.x| + |q.1.y - q.2.y| + |q.1.z - q.2.z| =
      a.axisMaxX b + a.axisMaxY b + a.axisMaxZ b := hqd
  refine ⟨?_, ?_, ?_⟩ <;> simp only [V3.sub_x, V3.sub_y, V3.sub_z] <;>
    rw [abs_sub_comm] <;> linarith

/-- The outcome of the farthest-pair scan, phrased on `outermost_points` and
`max_manhattan`: either nothing ever beat the sentinel, or the selected pair
is one of the 64 pairs and attains the recorded maximal distance. -/
lemma outermost_result (a b : Cuboid) :
    (a.outermost_points b = (V3.unit_x, V3.unit_x) ∧ a.max_manhattan b = 0) ∨
      (a.outermost_points b ∈ pairList a b ∧
        mdist (a.outermost_points b) = a.max_manhattan b) := by
  have h := foldl_bestStep_result (pairList a b) ((V3.unit_x, V3.unit_x), 0)
  unfold Cuboid.outermost_points Cuboid.max_manhattan
  rcases h with h | h
  · left
    rw [h]
    exact ⟨rfl, rfl⟩
  · right
    exact h

/-- Each per-axis magnitude of the merged cuboid's extent equals the
corresponding per-axis maximal separation of the two corner sets. -/
lemma containing_extent_abs (a b : Cuboid) :
    |(a.containing_cube b).extent.x| = a.axisMaxX b ∧
      |(a.containing_cube b).extent.y| = a.axisMaxY b ∧
      |(a.containing_cube b).extent.z| = a.axisMaxZ b := by
  have hsum := max_manhattan_eq_sum a b
  have hX := axisMax_nonneg a.corner.x (a.corner.x + a.extent.x)
    b.corner.x (b.corner.x + b.extent.x)
  have hY := axisMax_nonneg a.corner.y (a.corner.y + a.extent.y)
    b.corner.y (b.corner.y + b.extent.y)
  have hZ := axisMax_nonneg a.corner.z (a.corner.z + a.extent.z)
    b.corner.z (b.corner.z + b.extent.z)
  rcases outermost_result a b with ⟨h1, h2⟩ | ⟨h1, h2⟩
  · have hzero : a.axisMaxX b + a.axisMaxY b + a.axisMaxZ b = 0 := by
      rw [← hsum]
      exact h2
    unfold Cuboid.containing_cube Cuboid.from_corner_points
    rw [h1]
    unfold Cuboid.axisMaxX Cuboid.axisMaxY Cuboid.axisMaxZ at hzero ⊢
    refine ⟨?_, ?_, ?_⟩ <;> simp [V3.unit_x] <;> linarith
  · have hq := extent_abs_of_selected h1 (h2.trans hsum)
    unfold Cuboid.containing_cube Cuboid.from_corner_points
    exact hq

/-- Claim C7: the maximal Manhattan distance found by `A.containing_cube(B)`
equals the one found by `B.containing_cube(A)`, and the two resulting
extents have equal per-axis magnitudes. -/
theorem containing_cube_symmetric (a b : Cuboid) :
    a.max_manhattan b = b.max_manhattan a ∧
      |(a.containing_cube b).extent.x| = |(b.containing_cube a).extent.x| ∧
      |(a.containing_cube b).extent.y| = |(b.containing_cube a).extent.y| ∧
      |(a.containing_cube b).extent.z| = |(b.containing_cube a).extent.z| := by
  have hab := containing_extent_abs a b
  have hba := containing_extent_abs b a
  have hcx : a.axisMaxX b = b.axisMaxX a := axisMax_comm _ _ _ _
  have hcy : a.axisMaxY b = b.axisMaxY a := axisMax_comm _ _ _ _
  have hcz : a.axisMaxZ b = b.axisMaxZ a := axisMax_comm _ _ _ _
  refine ⟨?_, ?_, ?_, ?_⟩
  · rw [max_manhattan_eq_sum a b, max_manhattan_eq_sum b a, hcx, hcy, hcz]
  · rw [hab.1, hba.1, hcx]
  · rw [hab.2.1, hba.2.1, hcy]
  · rw [hab.2.2, hba.2.2, hcz]

@[simp] lemma V3.mk_x (a b c : ℚ) : (⟨a, b, c⟩ : V3).x = a := rfl
@[simp] lemma V3.mk_y (a b c : ℚ) : (⟨a, b, c⟩ : V3).y = b := rfl
@[simp] lemma V3.mk_z (a b c : ℚ) : (⟨a, b, c⟩ : V3).z = c := rfl

/-- General 4×4 inverse over the exact scalars, `det⁻¹ · adjugate`: the model
of `cgmath`'s `inverse_transform` (the source `unwrap`s, so a singular input
is a caller error; on singular matrices this total model returns the zero
matrix). -/
def inv4 (m : Matrix (Fin 4) (Fin 4) ℚ) : Matrix (Fin 4) (Fin 4) ℚ :=
  m.det⁻¹ • m.adjugate

lemma inv4_eq_inv (m : Matrix (Fin 4) (Fin 4) ℚ) : inv4 m = m⁻¹ := by
  rw [inv4, ← Ring.inverse_eq_inv, ← Matrix.inv_def]

lemma inv4_eq_of_right_inv (m n : Matrix (Fin 4) (Fin 4) ℚ) (h : m * n = 1) :
    inv4 m = n := by
  rw [inv4_eq_inv, Matrix.inv_eq_right_inv h]

/-- The clip-space vector built inside `unproject` (`in_vec` in the source):
`((winx/width)*2 - 1, ((height - winy)/height)*2 - 1, 2*winz - 1, 1)`. -/
def clipVec (winx winy winz : ℚ) (width height : ℕ) : Fin 4 → ℚ :=
  ![(winx / (width : ℚ)) * 2 - 1,
    (((height : ℚ) - winy) / (height : ℚ)) * 2 - 1,
    2 * winz - 1,
    1]

@[simp] lemma clipVec_zero (winx winy winz : ℚ) (w h : ℕ) :
    clipVec winx winy winz w h 0 = (winx / (w : ℚ)) * 2 - 1 := rfl
@[simp] lemma clipVec_one (winx winy winz : ℚ) (w h : ℕ) :
    clipVec winx winy winz w h 1 = (((h : ℚ) - winy) / (h : ℚ)) * 2 - 1 := rfl
@[simp] lemma clipVec_two (winx winy winz : ℚ) (w h : ℕ) :
    clipVec winx winy winz w h 2 = 2 * winz - 1 := rfl
@[simp] lemma clipVec_three (winx winy winz : ℚ) (w h : ℕ) :
    clipVec winx winy winz w h 3 = 1 := rfl

/-- `fn unproject`: invert `projection * model_view`, apply it to the
clip-space vector, then perform the perspective divide
(`out.w = 1.0 / out.w` followed by multiplying the first three components). -/
def unproject (winx winy winz : ℚ)
    (model_view projection : Matrix (Fin 4) (Fin 4) ℚ)
    (width height : ℕ) : V3 :=
  let matrix := inv4 (projection * model_view)
  let out := matrix.mulVec (clipVec winx winy winz width height)
  let w := (out 3)⁻¹
  ⟨out 0 * w, out 1 * w, out 2 * w⟩

lemma unproject_eq (winx winy winz : ℚ)
    (model_view projection : Matrix (Fin 4) (Fin 4) ℚ) (width height : ℕ) :
    unproject winx winy winz model_view projection width height =
      ⟨(inv4 (projection * model_view)).mulVec
          (clipVec winx winy winz width height) 0 *
        ((inv4 (projection * model_view)).mulVec
          (clipVec winx winy winz width height) 3)⁻¹,
       (inv4 (projection * model_view)).mulVec
          (clipVec winx winy winz width height) 1 *
        ((inv4 (projection * model_view)).mulVec
          (clipVec winx winy winz width height) 3)⁻¹,
       (inv4 (projection * model_view)).mulVec
          (clipVec winx winy winz width height) 2 *
        ((inv4 (projection * model_view)).mulVec
          (clipVec winx winy winz width height) 3)⁻¹⟩ := rfl

/-- Modelled from the claim's words (C8): apply a matrix to the point taken
as a homogeneous coordinate with `w = 1`, then perform the perspective
divide. -/
def reproject (p : V3) (m : Matrix (Fin 4) (Fin 4) ℚ) : ℚ × ℚ × ℚ :=
  let res := m.mulVec ![p.x, p.y, p.z, 1]
  (res 0 / res 3, res 1 / res 3, res 2 / res 3)

/-- Claim C8 (amended): for every invertible pair of matrices, positive
window size, pixel coordinates, and `winz ∈ [0, 1]`, re-projecting the
`unproject` result through `projection * model_view` with the perspective
divide recovers the normalized-device-coordinate triple — provided the
`w`-component of the inverse applied to the clip vector is nonzero (when it
is zero the perspective divide degenerates and the round trip fails). -/
theorem unproject_roundtrip (winx winy winz : ℚ)
    (model_view projection : Matrix (Fin 4) (Fin 4) ℚ) (width height : ℕ)
    (hproj : IsUnit projection.det) (hmv : IsUnit model_view.det)
    (hw : 0 < width) (hh : 0 < height) (hz0 : 0 ≤ winz) (hz1 : winz ≤ 1)
    (hwnz : (inv4 (projection * model_view)).mulVec
      (clipVec winx winy winz width height) 3 ≠ 0) :
    reproject (unproject winx winy winz model_view projection width height)
        (projection * model_view) =
      ((winx / (width : ℚ)) * 2 - 1,
       (((height : ℚ) - winy) / (height : ℚ)) * 2 - 1,
       winz * 2 - 1) := by
  have hdet : IsUnit (projection * model_view).det := by
    rw [Matrix.det_mul]
    exact hproj.mul hmv
  have hright : (projection * model_view) * inv4 (projection * model_view) =
      1 := by
    rw [inv4_eq_inv]
    exact Matrix.mul_nonsing_inv _ hdet
  have hhom : ![(inv4 (projection * model_view)).mulVec
        (clipVec winx winy winz width height) 0 *
          ((inv4 (projection * model_view)).mulVec
            (clipVec winx winy winz width height) 3)⁻¹,
      (inv4 (projection * model_view)).mulVec
        (clipVec winx winy winz width height) 1 *
          ((inv4 (projection * model_view)).mulVec
            (clipVec winx winy winz width height) 3)⁻¹,
      (inv4 (projection * model_view)).mulVec
        (clipVec winx winy winz width height) 2 *
          ((inv4 (projection * model_view)).mulVec
            (clipVec winx winy winz width height) 3)⁻¹,
      (1 : ℚ)] =
      ((inv4 (projection * model_view)).mulVec
          (clipVec winx winy winz width height) 3)⁻¹ •
        (inv4 (projection * model_view)).mulVec
          (clipVec winx winy winz width height) := by
    funext i
    fin_cases i
    · exact mul_comm _ _
    · exact mul_comm _ _
    · exact mul_comm _ _
    · exact (inv_mul_cancel₀ hwnz).symm
  have hcollapse : (projection * model_view).mulVec
      ((inv4 (projection * model_view)).mulVec
        (clipVec winx winy winz width height)) =
      clipVec winx winy winz width height := by
    rw [Matrix.mulVec_mulVec, hright, Matrix.one_mulVec]
  rw [unproject_eq]
  simp only [reproject, V3.mk_x, V3.mk_y, V3.mk_z]
  rw [hhom, Matrix.mulVec_smul, hcollapse]
  have hne : ((inv4 (projection * model_view)).mulVec
      (clipVec winx winy winz width height) 3)⁻¹ ≠ 0 := inv_ne_zero hwnz
  simp only [Pi.smul_apply, smul_eq_mul, clipVec_zero, clipVec_one,
    clipVec_two, clipVec_three, mul_one, Prod.mk.injEq]
  refine ⟨?_, ?_, ?_⟩
  · rw [mul_div_cancel_left₀ _ hne]
  · rw [mul_div_cancel_left₀ _ hne]
  · rw [mul_div_cancel_left₀ _ hne]
    ring

/-- A concrete invertible matrix that sends the clip vector of the
counterexample to a point with homogeneous `w = 0`. -/
def badProj : Matrix (Fin 4) (Fin 4) ℚ :=
  !![0, 0, 0, 1; 0, 1, 0, 0; 0, 0, 1, 0; 1, 0, 0, 5]

/-- Explicit inverse of `badProj`. -/
def badProjInv : Matrix (Fin 4) (Fin 4) ℚ :=
  !![-5, 0, 0, 1; 0, 1, 0, 0; 0, 0, 1, 0; 1, 0, 0, 0]

lemma badProj_mul_inv : badProj * badProjInv = 1 := by
  ext i j
  fin_cases i <;> fin_cases j <;>
    simp [badProj, badProjInv, Matrix.mul_apply, Fin.sum_univ_four,
      Matrix.one_apply, Matrix.vecHead, Matrix.vecTail]

/-- Claim C8 (counterexample): with `projection = badProj`,
`model_view = 1`, a 2×2 window, `winx = winy = 1` and `winz = 1/2` — an
invertible pair, positive window, `winz ∈ [0,1]` — the inverse maps the clip
vector `(0,0,0,1)` to `(1,0,0,0)` with `w = 0`; the perspective divide
degenerates and re-projecting does NOT recover the NDC triple `(0,0,0)`
(the code computes `1/0` here, i.e. a non-finite `f32` point). -/
theorem unproject_roundtrip_counterexample :
    IsUnit badProj.det ∧
      IsUnit (1 : Matrix (Fin 4) (Fin 4) ℚ).det ∧
      0 < 2 ∧ (0 : ℚ) ≤ 1 / 2 ∧ (1 / 2 : ℚ) ≤ 1 ∧
      reproject (unproject 1 1 (1 / 2) 1 badProj 2 2) (badProj * 1) ≠
        ((1 / ((2 : ℕ) : ℚ)) * 2 - 1,
         ((((2 : ℕ) : ℚ) - 1) / ((2 : ℕ) : ℚ)) * 2 - 1,
         (1 / 2 : ℚ) * 2 - 1) := by
  have hdet1 : badProj.det * badProjInv.det = 1 := by
    rw [← Matrix.det_mul, badProj_mul_inv, Matrix.det_one]
  refine ⟨isUnit_of_mul_eq_one _ _ hdet1, by simp, by norm_num, by norm_num,
    by norm_num, ?_⟩
  have hclip : clipVec 1 1 (1 / 2) 2 2 = ![0, 0, 0, 1] := by
    funext i
    fin_cases i <;> norm_num [clipVec]
  have hmv1 : badProjInv.mulVec ![0, 0, 0, 1] = ![1, 0, 0, 0] := by
    funext i
    fin_cases i <;>
      simp [badProjInv, Matrix.mulVec, Matrix.dotProduct, Fin.sum_univ_four]
  have h1 : unproject 1 1 (1 / 2) 1 badProj 2 2 = ⟨0, 0, 0⟩ := by
    rw [unproject_eq, mul_one, inv4_eq_of_right_inv badProj badProjInv
      badProj_mul_inv, hclip, hmv1]
    norm_num [V3.ext_iff]
  have h2 : badProj.mulVec ![0, 0, 0, 1] = ![1, 0, 0, 5] := by
    funext i
    fin_cases i <;>
      simp [badProj, Matrix.mulVec, Matrix.dotProduct, Fin.sum_univ_four]
  rw [h1]
  simp only [reproject, V3.mk_x, V3.mk_y, V3.mk_z, mul_one, h2]
  norm_num [Prod.ext_iff]

/-- Claim C8 (witness): identity matrices, a 2×2 window, pixel `(1,1)` and
depth `1/2`: the transformed `w` is `1 ≠ 0` and the round trip recovers the
NDC triple. -/
theorem unproject_roundtrip_witness :
    (inv4 ((1 : Matrix (Fin 4) (Fin 4) ℚ) * 1)).mulVec
        (clipVec 1 1 (1 / 2) 2 2) 3 ≠ 0 ∧
      reproject (unproject 1 1 (1 / 2) 1 1 2 2)
          ((1 : Matrix (Fin 4) (Fin 4) ℚ) * 1) =
        ((1 / ((2 : ℕ) : ℚ)) * 2 - 1,
         ((((2 : ℕ) : ℚ) - 1) / ((2 : ℕ) : ℚ)) * 2 - 1,
         (1 / 2 : ℚ) * 2 - 1) := by
  have hone : inv4 ((1 : Matrix (Fin 4) (Fin 4) ℚ) * 1) = 1 := by
    rw [mul_one]
    exact inv4_eq_of_right_inv 1 1 (one_mul 1)
  have hwnz : (inv4 ((1 : Matrix (Fin 4) (Fin 4) ℚ) * 1)).mulVec
      (clipVec 1 1 (1 / 2) 2 2) 3 ≠ 0 := by
    rw [hone, Matrix.one_mulVec, clipVec_three]
    norm_num
  exact ⟨hwnz, unproject_roundtrip 1 1 (1 / 2) 1 1 2 2 (by simp) (by simp)
    (by norm_num) (by norm_num) (by norm_num) (by norm_num) hwnz⟩

end VE
